import Mathlib

/-!
Verification of the swift-coffees group-partitioning code.

The repository contains three implementations of `createGroups`:
* `src/utils.ts` (embedded here as `createGroupsA`): plain chunking, with a
  merge of a trailing singleton group into the previous group only when
  `groupSize > 2`;
* the variant with the invariant-repair pass (embedded as `createGroupsB`):
  explicit handling of 0/1 users, a single group for `total <= 3`,
  special branches for `remainder = 1` and `remainder >= 2`, and a final
  scan dissolving singleton groups;
* the variant without the repair pass (embedded as `createGroupsC`).

JavaScript `for`/`while` loops over an index `i` advancing by `groupSize`
are embedded as recursion over the suffix of the list starting at `i`
(each step peels one element and then `take (g-1)` / `drop (g-1)` of the
tail, which for `g >= 1` equals `take g` / `drop g` of the whole suffix).
`Math.random()` is abstracted into a choice function `cs : Nat -> Nat`;
`Math.floor(Math.random() * (i + 1))` at loop index `i` becomes `cs i`,
which in JavaScript always lies in `[0, i]`.
-/

namespace SwiftCoffees

/-- Participant record, from `types.ts` (not under `src/`; modelled from the
spec's data model: identifier, display name, optional contact address). -/
structure SlackUser where
  id : String
  name : String
  email : Option String
deriving DecidableEq, Repr

/-- A coffee group; `createGroups` only ever fills `members` (the optional
meeting reference of the spec's data model is attached after partitioning
and plays no role in any claim about partitioning). -/
structure CoffeeGroup where
  members : List SlackUser
deriving DecidableEq, Repr

/-- One step of `shuffleArray`'s body:
`[array[i], array[j]] = [array[j], array[i]]`.  If either index is out of
range the list is returned unchanged (in the source both indices are
always in range: `j <= i <= length - 1`). -/
def swapAt (l : List α) (i j : Nat) : List α :=
  match l[i]?, l[j]? with
  | some a, some b => (l.set i b).set j a
  | _, _ => l

/-- The loop of `shuffleArray`: `for (let i = length - 1; i > 0; i--)`,
swapping position `i` with position `cs i`. -/
def fyLoop (cs : Nat → Nat) : Nat → List α → List α
  | 0, l => l
  | i + 1, l => fyLoop cs i (swapAt l (i + 1) (cs (i + 1)))

/-- `shuffleArray` from `utils.ts` (Fisher-Yates), with the stream of
`Math.floor(Math.random() * (i + 1))` draws abstracted as `cs`. -/
def shuffleArray (cs : Nat → Nat) (l : List α) : List α :=
  fyLoop cs (l.length - 1) l

theorem length_set_set (l : List α) (i j : Nat) (a b : α) :
    ((l.set i b).set j a).length = l.length := by
  simp

theorem swapAt_length (l : List α) (i j : Nat) :
    (swapAt l i j).length = l.length := by
  unfold swapAt
  split
  · simp
  · rfl

theorem fyLoop_length (cs : Nat → Nat) (n : Nat) (l : List α) :
    (fyLoop cs n l).length = l.length := by
  induction n generalizing l with
  | zero => rfl
  | succ i ih => rw [fyLoop, ih, swapAt_length]

theorem shuffleArray_length (cs : Nat → Nat) (l : List α) :
    (shuffleArray cs l).length = l.length := by
  unfold shuffleArray
  exact fyLoop_length cs (l.length - 1) l

theorem cons_get_set_perm (t : List α) (s : Nat) (a : α) (h : s < t.length) :
    List.Perm (t[s] :: t.set s a) (a :: t) := by
  induction t generalizing s a with
  | nil => simp at h
  | cons b t ih =>
    cases s with
    | zero =>
      simpa using List.Perm.swap a b t
    | succ s =>
      have h' : s < t.length := by simpa using h
      have step1 : List.Perm (t[s] :: b :: t.set s a) (b :: t[s] :: t.set s a) :=
        List.Perm.swap b (t[s]) (t.set s a)
      have step2 : List.Perm (b :: t[s] :: t.set s a) (b :: (a :: t)) :=
        List.Perm.cons b (ih s a h')
      have step3 : List.Perm (b :: a :: t) (a :: b :: t) := List.Perm.swap a b t
      simpa using (step1.trans step2).trans step3

theorem set_set_perm (l : List α) (i j : Nat) (hi : i < l.length)
    (hj : j < l.length) : List.Perm ((l.set i l[j]).set j l[i]) l := by
  induction l generalizing i j with
  | nil => simp at hi
  | cons a t ih =>
    cases i with
    | zero =>
      cases j with
      | zero => simp
      | succ s =>
        have hs : s < t.length := by simpa using hj
        simpa using cons_get_set_perm t s a hs
    | succ s =>
      cases j with
      | zero =>
        have hs : s < t.length := by simpa using hi
        simpa using cons_get_set_perm t s a hs
      | succ r =>
        have hs : s < t.length := by simpa using hi
        have hr : r < t.length := by simpa using hj
        simpa using List.Perm.cons a (ih s r hs hr)

theorem swapAt_perm (l : List α) (i j : Nat) : List.Perm (swapAt l i j) l := by
  unfold swapAt
  split
  next a b hi hj =>
    have hi' : i < l.length := by
      have := List.getElem?_eq_some.mp hi
      exact this.1
    have hj' : j < l.length := by
      have := List.getElem?_eq_some.mp hj
      exact this.1
    have ha : l[i] = a := by
      have := List.getElem?_eq_some.mp hi
      exact this.2
    have hb : l[j] = b := by
      have := List.getElem?_eq_some.mp hj
      exact this.2
    rw [← ha, ← hb]
    exact set_set_perm l i j hi' hj'
  next =>
    exact List.Perm.refl l

theorem fyLoop_perm (cs : Nat → Nat) (n : Nat) (l : List α) :
    List.Perm (fyLoop cs n l) l := by
  induction n generalizing l with
  | zero => exact List.Perm.refl l
  | succ i ih =>
    rw [fyLoop]
    exact (ih _).trans (swapAt_perm l (i + 1) (cs (i + 1)))

theorem shuffleArray_perm (cs : Nat → Nat) (l : List α) :
    List.Perm (shuffleArray cs l) l :=
  fyLoop_perm cs (l.length - 1) l

/-- The chunking loop `for (let i = 0; i < length; i += g) push(slice(i, i+g))`
(with the `length > 0` guard on each pushed chunk), as recursion over the
suffix starting at `i`.  For `g >= 1` each step takes `take g` and continues
on `drop g`; the peel-one form makes termination structural in the length.
(For `g = 0` the JavaScript loop does not terminate; no claim uses `g = 0`.) -/
def chunksOf (g : Nat) : List α → List (List α)
  | [] => []
  | a :: l => (a :: l.take (g - 1)) :: chunksOf g (l.drop (g - 1))
termination_by l => l.length
decreasing_by
  simp only [List.length_drop, List.length_cons]
  omega

/-- Sizes of the chunks of an `n`-element list cut at width `g`. -/
def chunkSizes (g n : Nat) : List Nat :=
  List.replicate (n / g) g ++ if n % g = 0 then [] else [n % g]

theorem chunksOf_nil (g : Nat) : chunksOf g ([] : List α) = [] := by
  simp [chunksOf]

theorem chunksOf_cons (g : Nat) (a : α) (l : List α) :
    chunksOf g (a :: l) = (a :: l.take (g - 1)) :: chunksOf g (l.drop (g - 1)) := by
  simp [chunksOf]

theorem chunkSizes_zero (g : Nat) : chunkSizes g 0 = [] := by
  simp [chunkSizes]

theorem chunkSizes_of_lt (g n : Nat) (h0 : 0 < n) (h : n < g) :
    chunkSizes g n = [n] := by
  unfold chunkSizes
  rw [Nat.div_eq_of_lt h, Nat.mod_eq_of_lt h]
  have : ¬ (n = 0) := by omega
  simp [this]

theorem chunkSizes_step (g n : Nat) (hg : 0 < g) (h : g ≤ n) :
    chunkSizes g n = g :: chunkSizes g (n - g) := by
  obtain ⟨m, rfl⟩ : ∃ m, n = m + g := ⟨n - g, by omega⟩
  unfold chunkSizes
  rw [Nat.add_mod_right, Nat.add_div_right _ hg, Nat.add_sub_cancel,
    List.replicate_succ]
  rfl

theorem chunksOf_join (g : Nat) (l : List α) : (chunksOf g l).flatten = l := by
  have H : ∀ n (l : List α), l.length ≤ n → (chunksOf g l).flatten = l := by
    intro n
    induction n with
    | zero =>
      intro l hl
      have : l = [] := List.length_eq_zero.mp (Nat.le_zero.mp hl)
      rw [this, chunksOf_nil]
      rfl
    | succ n ih =>
      intro l hl
      cases l with
      | nil => rw [chunksOf_nil]; rfl
      | cons a t =>
        rw [chunksOf_cons, List.flatten_cons,
          ih (t.drop (g - 1)) (by simp at hl ⊢; omega)]
        simp [List.take_append_drop]
  exact H l.length l (Nat.le_refl _)

theorem chunksOf_ne_nil (g : Nat) (l : List α) :
    ∀ c ∈ chunksOf g l, c ≠ [] := by
  have H : ∀ n (l : List α), l.length ≤ n → ∀ c ∈ chunksOf g l, c ≠ [] := by
    intro n
    induction n with
    | zero =>
      intro l hl
      have : l = [] := List.length_eq_zero.mp (Nat.le_zero.mp hl)
      rw [this, chunksOf_nil]
      intro c hc
      simp at hc
    | succ n ih =>
      intro l hl c hc
      cases l with
      | nil => rw [chunksOf_nil] at hc; simp at hc
      | cons a t =>
        rw [chunksOf_cons] at hc
        rcases List.mem_cons.mp hc with h | h
        · rw [h]; exact List.cons_ne_nil a _
        · exact ih (t.drop (g - 1)) (by simp at hl ⊢; omega) c h
  exact H l.length l (Nat.le_refl _)

theorem map_length_chunksOf (g : Nat) (hg : 1 ≤ g) (l : List α) :
    (chunksOf g l).map List.length = chunkSizes g l.length := by
  have H : ∀ n (l : List α), l.length ≤ n →
      (chunksOf g l).map List.length = chunkSizes g l.length := by
    intro n
    induction n with
    | zero =>
      intro l hl
      have : l = [] := List.length_eq_zero.mp (Nat.le_zero.mp hl)
      rw [this, chunksOf_nil]
      simp [chunkSizes_zero]
    | succ n ih =>
      intro l hl
      cases l with
      | nil =>
        rw [chunksOf_nil]
        simp [chunkSizes_zero]
      | cons a t =>
        rw [chunksOf_cons, List.map_cons,
          ih (t.drop (g - 1)) (by simp at hl ⊢; omega)]
        simp only [List.length_cons, List.length_take, List.length_drop]
        by_cases hge : g ≤ t.length + 1
        · rw [chunkSizes_step g (t.length + 1) (by omega) hge]
          congr 1
          · omega
          · congr 1
            omega
        · have h0 : t.length - (g - 1) = 0 := by omega
          rw [h0, chunkSizes_zero,
            chunkSizes_of_lt g (t.length + 1) (by omega) (by omega)]
          congr 2
          omega
  exact H l.length l (Nat.le_refl _)

/-- The merge step at the end of `createGroups` in `src/utils.ts`: if there
is more than one group, the last group has exactly one member and
`groupSize > 2`, the last group is folded into the one before it. -/
def mergeLastIfSingle (g : Nat) (gs : List (List α)) : List (List α) :=
  if 1 < gs.length ∧ (gs.getLastD []).length = 1 ∧ 2 < g then
    gs.dropLast.dropLast ++ [gs.dropLast.getLastD [] ++ gs.getLastD []]
  else gs

/-- `createGroups` from `src/utils.ts`: chunk the shuffled list at width
`g`, then possibly merge a trailing singleton group. -/
def createGroupsA (cs : Nat → Nat) (users : List SlackUser) (g : Nat) :
    List CoffeeGroup :=
  if users.length = 0 then []
  else
    (mergeLastIfSingle g (chunksOf g (shuffleArray cs users))).map CoffeeGroup.mk

/-- Mutation of the last group (`previousGroup.members = [...]`) in the
`remainder = 1` branch of the repair-pass variant. -/
def updateLast (f : List α → List α) : List (List α) → List (List α)
  | [] => []
  | [a] => [f a]
  | a :: b :: t => a :: updateLast f (b :: t)

/-- The `while (currentIndex < shuffledUsers.length)` loop of the
`remainder === 1` branch of the repair-pass variant: if fewer than
`min g 2` users remain they are folded into the last group built so far,
otherwise a chunk of width `g` is pushed. -/
def r1Loop (g : Nat) (gs : List (List α)) : List α → List (List α)
  | [] => gs
  | a :: rest =>
    if (a :: rest).length < g ∧ (a :: rest).length < 2 then
      updateLast (fun p => p ++ (a :: rest)) gs
    else
      r1Loop g (gs ++ [a :: rest.take (g - 1)]) (rest.drop (g - 1))
termination_by l => l.length
decreasing_by
  simp only [List.length_drop, List.length_cons]
  omega

/-- The `for (let i = 0; i < totalLargerGroups; i++)` loop: `t` slices of
width `g + 1` (`slice` clamps at the end of the list, and the loop pushes
each slice unconditionally), together with the remaining suffix. -/
def largerChunks (g : Nat) : Nat → List α → List (List α) × List α
  | 0, l => ([], l)
  | t + 1, l =>
    let res := largerChunks g t (l.drop (g + 1))
    (l.take (g + 1) :: res.1, res.2)

/-- The `while (currentIndex < shuffledUsers.length - (groupSize + 1))`
loop of the repair-pass variant's redistribute sub-branch: chunks of width
`g` while more than `g + 1` users remain, plus the remaining suffix
(`slice(currentIndex)`). -/
def boundedChunks (g : Nat) : List α → List (List α) × List α
  | [] => ([], [])
  | a :: rest =>
    if g + 1 < (a :: rest).length then
      let res := boundedChunks g (rest.drop (g - 1))
      ((a :: rest.take (g - 1)) :: res.1, res.2)
    else ([], a :: rest)
termination_by l => l.length
decreasing_by
  simp only [List.length_drop, List.length_cons]
  omega

/-- `validGroups[index % validGroups.length].members.push(person)`. -/
def addRR (gs : List (List α)) (i : Nat) (p : α) : List (List α) :=
  gs.set i (gs.getD i [] ++ [p])

/-- The `singlePersons.forEach((person, index) => ...)` loop of the repair
pass: person number `idx` is appended to group `idx % gs.length` when any
group exists, and dropped otherwise. -/
def rrLoop (gs : List (List α)) (idx : Nat) : List α → List (List α)
  | [] => gs
  | p :: ps =>
    if 0 < gs.length then rrLoop (addRR gs (idx % gs.length) p) (idx + 1) ps
    else rrLoop gs (idx + 1) ps

/-- The final safety check of the repair-pass variant: if any group has
exactly one member, keep only the groups with more than one member and
redistribute the singletons round-robin into them. -/
def repairPass (gs : List (List α)) : List (List α) :=
  let singles := gs.filter (fun gr => gr.length == 1)
  if 0 < singles.length then
    rrLoop (gs.filter (fun gr => decide (1 < gr.length))) 0 singles.flatten
  else gs

/-- The `else` branch (`remainder >= 2`) of the repair-pass variant.
The JavaScript guard `remainingUsers % groupSize === 1 && remainingGroups > 1`
computes `remainingUsers = length - currentIndex` and
`remainingGroups = Math.ceil(remainingUsers / groupSize)`; when
`currentIndex <= length` these coincide with the natural-number
expressions below, and when `currentIndex > length` the JavaScript guard is
false (negative `remainingUsers` satisfies neither conjunct) just as the
truncated subtraction `rem.length = 0` makes the guard below false. -/
def elseBranchB (g : Nat) (l : List α) : List (List α) :=
  let r := l.length % g
  let nSG := l.length / g
  let tLG := if nSG < r then 1 else r
  let res := largerChunks g tLG l
  if res.2.length % g = 1 ∧ 1 < (res.2.length + g - 1) / g then
    let mids := boundedChunks g res.2
    res.1 ++ mids.1 ++ (if 0 < mids.2.length then [mids.2] else [])
  else
    res.1 ++ chunksOf g res.2

/-- The three partitioning branches of the repair-pass variant for
`totalUsers > 3`: the `remainder === 1` special case, the exact-division
case, and the `else` branch. -/
def rawBranches (g : Nat) (l : List α) : List (List α) :=
  if l.length % g = 1 then
    r1Loop g [l.take (g + 1)] (l.drop (g + 1))
  else if l.length % g = 0 then chunksOf g l
  else elseBranchB g l

/-- The branch dispatch of the repair-pass variant of `createGroups`,
before the final safety check (the `groups` array as it stands at the
start of the scan for single-person groups; for `totalUsers <= 3` this is
the single group the function returns early). -/
def rawGroupsB (cs : Nat → Nat) (users : List SlackUser) (g : Nat) :
    List (List SlackUser) :=
  if users.length = 0 then []
  else if users.length = 1 then []
  else
    let l := shuffleArray cs users
    if l.length ≤ 3 then [l]
    else rawBranches g l

/-- The repair-pass variant of `createGroups` (the implementation whose
doc comment promises that no single-person groups are created).  The
`totalUsers <= 3` branch returns before the safety check runs, exactly as
in the source. -/
def createGroupsBCore (cs : Nat → Nat) (users : List SlackUser) (g : Nat) :
    List (List SlackUser) :=
  if users.length = 0 then []
  else if users.length = 1 then []
  else
    let l := shuffleArray cs users
    if l.length ≤ 3 then [l]
    else repairPass (rawBranches g l)

/-- The repair-pass variant of `createGroups`, with the members lists
wrapped as `CoffeeGroup` records, as pushed by the source. -/
def createGroupsB (cs : Nat → Nat) (users : List SlackUser) (g : Nat) :
    List CoffeeGroup :=
  (createGroupsBCore cs users g).map CoffeeGroup.mk

/-- The third variant of `createGroups` (no repair pass): a group of 3 plus
chunks when `remainder === 1 && totalUsers > groupSize`, plain chunks when
`remainder === 0`, and larger-groups-first distribution otherwise. -/
def createGroupsCCore (cs : Nat → Nat) (users : List SlackUser) (g : Nat) :
    List (List SlackUser) :=
  if users.length = 0 then []
  else
    let l := shuffleArray cs users
    let r := l.length % g
    if r = 1 ∧ g < l.length then
      l.take 3 :: chunksOf g (l.drop 3)
    else if r = 0 then chunksOf g l
    else
      let nSG := l.length / g
      let tLG := if nSG < r then 1 else r
      let res := largerChunks g tLG l
      res.1 ++ chunksOf g res.2

/-- The third variant of `createGroups`, wrapped as `CoffeeGroup` records. -/
def createGroupsC (cs : Nat → Nat) (users : List SlackUser) (g : Nat) :
    List CoffeeGroup :=
  (createGroupsCCore cs users g).map CoffeeGroup.mk

/-- Group sizes of a result list. -/
def sizesOf (gs : List CoffeeGroup) : List Nat :=
  gs.map (fun gr => gr.members.length)

/-- Result record of `createGoogleMeetEvent`: the source returns an object
with optional `meetLink`, `eventId` and `error` fields. -/
structure MeetResult where
  meetLink : Option String
  eventId : Option String
  error : Option String
deriving DecidableEq, Repr

/-- JavaScript truthiness of `member.email` as tested by
`group.members.every(member => member.email)`: `undefined` and the empty
string are falsy. -/
def emailTruthy (m : SlackUser) : Bool :=
  match m.email with
  | none => false
  | some s => !(s == "")

/-- `createGoogleMeetEvent` from `utils.ts`.  The Google Calendar client is
abstracted as an optional insertion function from the attendee email list
to a result (`none` models an uninitialized `calendarApi`); the event-body
construction and the remote call happen after the validation steps the
claims concern and are folded into that function. -/
def createGoogleMeetEvent (group : CoffeeGroup)
    (calendarApi : Option (List String → MeetResult)) : MeetResult :=
  match calendarApi with
  | none =>
    ⟨none, none, some "Google Calendar API not initialized. Cannot create event."⟩
  | some insert =>
    if !(group.members.all emailTruthy) then
      ⟨none, none,
        some "Some members in the group are missing email addresses. Cannot create Google Calendar invite for all."⟩
    else
      let attendees := (group.members.filter emailTruthy).map
        (fun m => m.email.getD "")
      if attendees.length = 0 then
        ⟨none, none,
          some "No members with email addresses in this group. Cannot create event."⟩
      else insert attendees

theorem exists_concat_concat (gs : List (List α)) (h : 1 < gs.length) :
    ∃ ys b c, gs = ys ++ [b, c] := by
  rcases List.eq_nil_or_concat gs with h0 | ⟨L, c, rfl⟩
  · rw [h0] at h; simp at h
  · rcases List.eq_nil_or_concat L with h1 | ⟨M, b, rfl⟩
    · rw [h1] at h; simp at h
    · exact ⟨M, b, c, by simp⟩

theorem mergeLastIfSingle_flatten (g : Nat) (gs : List (List α)) :
    (mergeLastIfSingle g gs).flatten = gs.flatten := by
  unfold mergeLastIfSingle
  split
  next h =>
    obtain ⟨ys, b, c, rfl⟩ := exists_concat_concat gs h.1
    have hys : ys ++ [b, c] = (ys ++ [b]) ++ [c] := by simp
    rw [hys, List.dropLast_concat, List.dropLast_concat,
      List.getLastD_concat, List.getLastD_concat]
    simp
  next => rfl

theorem mergeLastIfSingle_of_not_gt (g : Nat) (hg : ¬ 2 < g)
    (gs : List (List α)) : mergeLastIfSingle g gs = gs := by
  unfold mergeLastIfSingle
  have h : ¬ (1 < gs.length ∧ (gs.getLastD []).length = 1 ∧ 2 < g) := by
    intro h; exact hg h.2.2
  rw [if_neg h]

theorem largerChunks_flatten (g : Nat) (t : Nat) (l : List α) :
    (largerChunks g t l).1.flatten ++ (largerChunks g t l).2 = l := by
  induction t generalizing l with
  | zero => rfl
  | succ t ih =>
    rw [largerChunks]
    simp only [List.flatten_cons, List.append_assoc]
    rw [ih (l.drop (g + 1))]
    exact List.take_append_drop (g + 1) l

theorem largerChunks_snd (g : Nat) (t : Nat) (l : List α) :
    (largerChunks g t l).2 = l.drop (t * (g + 1)) := by
  induction t generalizing l with
  | zero => simp [largerChunks]
  | succ t ih =>
    rw [largerChunks, ih (l.drop (g + 1)), List.drop_drop]
    congr 1
    ring

theorem largerChunks_sizes (g : Nat) (t : Nat) (l : List α)
    (h : t * (g + 1) ≤ l.length) :
    (largerChunks g t l).1.map List.length = List.replicate t (g + 1) := by
  induction t generalizing l with
  | zero => rfl
  | succ t ih =>
    rw [Nat.succ_mul] at h
    rw [largerChunks]
    simp only [List.map_cons, List.length_take]
    rw [ih (l.drop (g + 1)) (by simp only [List.length_drop]; omega),
      List.replicate_succ]
    congr 1
    omega

theorem largerChunks_one (g : Nat) (l : List α) :
    largerChunks g 1 l = ([l.take (g + 1)], l.drop (g + 1)) := by
  rfl

theorem largerChunks_fst_head (g : Nat) (t : Nat) (ht : 0 < t) (l : List α) :
    ∃ rest, (largerChunks g t l).1 = l.take (g + 1) :: rest := by
  cases t with
  | zero => omega
  | succ t => exact ⟨(largerChunks g t (l.drop (g + 1))).1, rfl⟩

theorem r1Loop_of_mul (g : Nat) (hg : 2 ≤ g) :
    ∀ (k : Nat) (rem : List α) (gs : List (List α)), rem.length = g * k →
      r1Loop g gs rem = gs ++ chunksOf g rem := by
  intro k
  induction k with
  | zero =>
    intro rem gs h
    rw [Nat.mul_zero] at h
    have : rem = [] := List.length_eq_zero.mp h
    rw [this, chunksOf_nil]
    simp [r1Loop]
  | succ k ih =>
    intro rem gs h
    rw [Nat.mul_add, Nat.mul_one] at h
    cases rem with
    | nil =>
      simp only [List.length_nil] at h
      omega
    | cons a rest =>
      rw [r1Loop]
      simp only [List.length_cons] at h
      have hcond : ¬ ((a :: rest).length < g ∧ (a :: rest).length < 2) := by
        simp only [List.length_cons]
        omega
      rw [if_neg hcond]
      have hrec : (rest.drop (g - 1)).length = g * k := by
        simp only [List.length_drop]
        omega
      rw [ih (rest.drop (g - 1)) (gs ++ [a :: rest.take (g - 1)]) hrec,
        chunksOf_cons]
      simp

theorem r1Loop_of_dvd (g : Nat) (hg : 2 ≤ g) (gs : List (List α))
    (rem : List α) (hdvd : g ∣ rem.length) :
    r1Loop g gs rem = gs ++ chunksOf g rem := by
  rcases hdvd with ⟨k, hk⟩
  exact r1Loop_of_mul g hg k rem gs hk

theorem rrLoop_length (gs : List (List α)) (idx : Nat) (ps : List α) :
    (rrLoop gs idx ps).length = gs.length := by
  induction ps generalizing gs idx with
  | nil => rfl
  | cons p ps ih =>
    rw [rrLoop]
    split
    · rw [ih]
      unfold addRR
      exact List.length_set gs _ _
    · exact ih gs (idx + 1)

theorem rrLoop_all_ge2 (gs : List (List α)) (idx : Nat) (ps : List α)
    (h : ∀ gr ∈ gs, 2 ≤ gr.length) :
    ∀ gr ∈ rrLoop gs idx ps, 2 ≤ gr.length := by
  induction ps generalizing gs idx with
  | nil => exact h
  | cons p ps ih =>
    rw [rrLoop]
    split
    · apply ih
      intro gr hgr
      rcases List.mem_or_eq_of_mem_set hgr with hmem | heq
      · exact h gr hmem
      · rw [heq]
        have hi : idx % gs.length < gs.length := Nat.mod_lt idx (by omega)
        rw [List.getD_eq_getElem _ _ hi]
        have : 2 ≤ gs[idx % gs.length].length :=
          h _ (List.getElem_mem hi)
        simp only [List.length_append, List.length_cons, List.length_nil]
        omega
    · exact ih gs (idx + 1) h

theorem flatten_addRR_perm (gs : List (List α)) (i : Nat) (p : α)
    (hi : i < gs.length) :
    List.Perm (addRR gs i p).flatten (p :: gs.flatten) := by
  induction gs generalizing i with
  | nil => simp at hi
  | cons a t ih =>
    cases i with
    | zero =>
      unfold addRR
      simp only [List.set_cons_zero, List.getD_cons_zero, List.flatten_cons]
      have h1 : List.Perm ((a ++ [p]) ++ t.flatten) ((p :: a) ++ t.flatten) :=
        List.Perm.append_right t.flatten (List.perm_append_singleton p a)
      exact h1
    | succ i =>
      have hi' : i < t.length := by simpa using hi
      unfold addRR
      simp only [List.set_cons_succ, List.getD_cons_succ, List.flatten_cons]
      have h1 := ih i hi'
      unfold addRR at h1
      exact (List.Perm.append_left a h1).trans List.perm_middle

theorem rrLoop_flatten_perm (gs : List (List α)) (idx : Nat) (ps : List α)
    (h : 0 < gs.length) :
    List.Perm (rrLoop gs idx ps).flatten (gs.flatten ++ ps) := by
  induction ps generalizing gs idx with
  | nil =>
    rw [rrLoop, List.append_nil]
  | cons p ps ih =>
    rw [rrLoop, if_pos h]
    have hlen : 0 < (addRR gs (idx % gs.length) p).length := by
      unfold addRR
      rw [List.length_set]
      exact h
    have h1 := ih (addRR gs (idx % gs.length) p) (idx + 1) hlen
    have h2 : List.Perm ((addRR gs (idx % gs.length) p).flatten ++ ps)
        ((p :: gs.flatten) ++ ps) :=
      List.Perm.append_right ps
        (flatten_addRR_perm gs (idx % gs.length) p (Nat.mod_lt idx h))
    have h3 : List.Perm ((p :: gs.flatten) ++ ps) (gs.flatten ++ (p :: ps)) :=
      List.perm_middle.symm
    exact (h1.trans h2).trans h3

theorem repairPass_eq_of_no_singles (gs : List (List α))
    (h : ∀ gr ∈ gs, gr.length ≠ 1) : repairPass gs = gs := by
  unfold repairPass
  have hnil : gs.filter (fun gr => gr.length == 1) = [] := by
    rw [List.filter_eq_nil_iff]
    intro gr hgr
    simpa using h gr hgr
  rw [hnil]
  rfl

theorem repairPass_no_single (gs : List (List α)) :
    ∀ gr ∈ repairPass gs, gr.length ≠ 1 := by
  simp only [repairPass]
  split
  next hpos =>
    intro gr hgr
    have : 2 ≤ gr.length := by
      refine rrLoop_all_ge2 _ 0 _ ?_ gr hgr
      intro gr' hgr'
      have := (List.mem_filter.mp hgr').2
      simp at this
      omega
    omega
  next hpos =>
    intro gr hgr
    have hnil : gs.filter (fun gr => gr.length == 1) = [] := by
      cases hfil : gs.filter (fun gr => gr.length == 1) with
      | nil => rfl
      | cons x xs => rw [hfil] at hpos; simp at hpos
    have := List.filter_eq_nil_iff.mp hnil gr hgr
    simpa using this

theorem repairPass_all_ge2 (gs : List (List α))
    (h : ∀ gr ∈ gs, gr ≠ []) :
    ∀ gr ∈ repairPass gs, 2 ≤ gr.length := by
  intro gr hgr
  have h1 := repairPass_no_single gs gr hgr
  simp only [repairPass] at hgr
  split at hgr
  next hpos =>
    refine rrLoop_all_ge2 _ 0 _ ?_ gr hgr
    intro gr' hgr'
    have := (List.mem_filter.mp hgr').2
    simp at this
    omega
  next hpos =>
    have h2 : gr ≠ [] := h gr hgr
    have h3 : gr.length ≠ 0 := by
      intro h0
      exact h2 (List.length_eq_zero.mp h0)
    omega

theorem repairPass_idem (gs : List (List α)) :
    repairPass (repairPass gs) = repairPass gs :=
  repairPass_eq_of_no_singles _ (repairPass_no_single gs)

theorem filter_flatten_perm (gs : List (List α))
    (h : ∀ gr ∈ gs, gr ≠ []) :
    List.Perm
      ((gs.filter (fun gr => decide (1 < gr.length))).flatten ++
        (gs.filter (fun gr => gr.length == 1)).flatten)
      gs.flatten := by
  have hq : gs.filter (fun gr => gr.length == 1) =
      gs.filter (fun gr => !(decide (1 < gr.length))) := by
    apply List.filter_congr
    intro gr hgr
    have h0 : gr.length ≠ 0 := by
      intro h0
      exact h gr hgr (List.length_eq_zero.mp h0)
    by_cases h1 : gr.length = 1
    · simp [h1]
    · have : 1 < gr.length := by omega
      simp [h1, this]
  rw [hq, ← List.flatten_append]
  exact List.Perm.flatten
    (List.filter_append_perm (fun gr => decide (1 < gr.length)) gs)

theorem r1_arith (g N : Nat) (_hg : 2 ≤ g) (h4 : 4 ≤ N) (h1 : N % g = 1) :
    g + 1 ≤ N ∧ g ∣ (N - (g + 1)) := by
  have hd := Nat.div_add_mod N g
  rw [h1] at hd
  obtain ⟨m, hm⟩ : ∃ m, N / g = m + 1 := by
    refine ⟨N / g - 1, ?_⟩
    rcases Nat.eq_zero_or_pos (N / g) with h0 | h0
    · rw [h0, Nat.mul_zero] at hd; omega
    · omega
  rw [hm, Nat.mul_add, Nat.mul_one] at hd
  refine ⟨by omega, ⟨m, by omega⟩⟩

theorem guard_arith (g N : Nat) (hg : 2 ≤ g) (h4 : 4 ≤ N) (hr : 2 ≤ N % g) :
    ¬ ((N - (if N / g < N % g then 1 else N % g) * (g + 1)) % g = 1 ∧
      1 < ((N - (if N / g < N % g then 1 else N % g) * (g + 1)) + g - 1) / g) := by
  have hd := Nat.div_add_mod N g
  have hlt : N % g < g := Nat.mod_lt N (by omega)
  split
  next hq =>
    -- tLG = 1, remaining length N - (g + 1)
    simp only [Nat.one_mul]
    rcases Nat.eq_zero_or_pos (N / g) with h0 | h0
    · -- N < g: the remaining length truncates to 0
      rw [h0, Nat.mul_zero] at hd
      have hz : N - (g + 1) = 0 := by omega
      rw [hz]
      simp [Nat.zero_mod]
    · obtain ⟨m, hm⟩ : ∃ m, N / g = m + 1 := ⟨N / g - 1, by omega⟩
      rw [hm, Nat.mul_add, Nat.mul_one] at hd
      have hrem : N - (g + 1) = g * m + (N % g - 1) := by omega
      rw [hrem]
      rw [Nat.mul_add_mod]
      rw [Nat.mod_eq_of_lt (by omega)]
      intro hcontra
      obtain ⟨hmod, hdiv⟩ := hcontra
      -- hmod forces the remainder to be 2, hence N / g = 1 and one user remains
      have hr2 : N % g = 2 := by omega
      have hm0 : m = 0 := by
        rw [hm] at hq
        omega
      subst hm0
      have hone : g * 0 + (N % g - 1) + g - 1 = g := by omega
      rw [hone, Nat.div_self (by omega : 0 < g)] at hdiv
      omega
  next hq =>
    -- tLG = N % g <= N / g, remaining length is a multiple of g
    obtain ⟨k, hk⟩ : ∃ k, N / g = N % g + k := ⟨N / g - N % g, by omega⟩
    rw [hk, Nat.mul_add] at hd
    have hmul : N % g * (g + 1) = g * (N % g) + N % g := by ring
    have hrem : N - N % g * (g + 1) = g * k := by omega
    rw [hrem, Nat.mul_mod_right]
    intro hcontra
    omega

theorem elseBranchB_eq (g : Nat) (hg : 2 ≤ g) (l : List α)
    (h4 : 4 ≤ l.length) (hr : 2 ≤ l.length % g) :
    elseBranchB g l =
      (largerChunks g (if l.length / g < l.length % g then 1 else l.length % g) l).1 ++
        chunksOf g
          (largerChunks g (if l.length / g < l.length % g then 1 else l.length % g) l).2 := by
  unfold elseBranchB
  have hsnd := largerChunks_snd g
    (if l.length / g < l.length % g then 1 else l.length % g) l
  have hlen : (largerChunks g
      (if l.length / g < l.length % g then 1 else l.length % g) l).2.length =
      l.length - (if l.length / g < l.length % g then 1 else l.length % g) * (g + 1) := by
    rw [hsnd, List.length_drop]
  rw [if_neg (by rw [hlen]; exact guard_arith g l.length hg h4 hr)]

theorem length_eq_of_map_replicate {gs : List (List α)} {k t : Nat}
    (h : gs.map List.length = List.replicate t k) :
    ∀ gr ∈ gs, gr.length = k := by
  intro gr hgr
  have hmem : gr.length ∈ gs.map List.length :=
    List.mem_map.mpr ⟨gr, hgr, rfl⟩
  rw [h] at hmem
  exact List.eq_of_mem_replicate hmem

theorem tLG_mul_le (g N : Nat) (_hg : 2 ≤ g) (h : N % g ≤ N / g) :
    (N % g) * (g + 1) ≤ N := by
  have hd := Nat.div_add_mod N g
  have hmul : N % g * (g + 1) = g * (N % g) + N % g := by ring
  have hle : g * (N % g) ≤ g * (N / g) := Nat.mul_le_mul_left g h
  omega

theorem ne_nil_of_length_ge (l : List α) (n : Nat) (hn : 0 < n)
    (h : n ≤ l.length) : l ≠ [] := by
  intro hnil
  rw [hnil] at h
  simp at h
  omega

theorem rawBranches_ne_nil (g : Nat) (hg : 2 ≤ g) (l : List α)
    (h4 : 4 ≤ l.length) : ∀ gr ∈ rawBranches g l, gr ≠ [] := by
  have hlnil : l ≠ [] := ne_nil_of_length_ge l 4 (by omega) h4
  unfold rawBranches
  split
  next h1 =>
    obtain ⟨hle, hdvd⟩ := r1_arith g l.length hg h4 h1
    rw [r1Loop_of_dvd g hg _ _ (by rw [List.length_drop]; exact hdvd)]
    intro gr hgr
    rcases List.mem_append.mp hgr with hmem | hmem
    · have : gr = l.take (g + 1) := by simpa using hmem
      rw [this]
      exact ne_nil_of_length_ge _ 1 (by omega)
        (by rw [List.length_take]; omega)
    · exact chunksOf_ne_nil g _ gr hmem
  next h1 =>
    split
    next h0 => exact chunksOf_ne_nil g l
    next h0 =>
      have hr : 2 ≤ l.length % g := by
        have := Nat.mod_lt l.length (show 0 < g by omega)
        omega
      rw [elseBranchB_eq g hg l h4 hr]
      intro gr hgr
      rcases List.mem_append.mp hgr with hmem | hmem
      · split at hmem
        next hq =>
          rw [largerChunks_one] at hmem
          have : gr = l.take (g + 1) := by simpa using hmem
          rw [this]
          exact ne_nil_of_length_ge _ 1 (by omega)
            (by rw [List.length_take]; omega)
        next hq =>
          have hsz := largerChunks_sizes g (l.length % g) l
            (tLG_mul_le g l.length hg (by omega))
          have := length_eq_of_map_replicate hsz gr hmem
          exact ne_nil_of_length_ge gr (g + 1) (by omega) (by omega)
      · exact chunksOf_ne_nil g _ gr hmem

theorem rawBranches_flatten (g : Nat) (hg : 2 ≤ g) (l : List α)
    (h4 : 4 ≤ l.length) : (rawBranches g l).flatten = l := by
  unfold rawBranches
  split
  next h1 =>
    obtain ⟨hle, hdvd⟩ := r1_arith g l.length hg h4 h1
    rw [r1Loop_of_dvd g hg _ _ (by rw [List.length_drop]; exact hdvd)]
    rw [List.flatten_append, chunksOf_join]
    simp [List.take_append_drop]
  next h1 =>
    split
    next h0 => exact chunksOf_join g l
    next h0 =>
      have hr : 2 ≤ l.length % g := by
        have := Nat.mod_lt l.length (show 0 < g by omega)
        omega
      rw [elseBranchB_eq g hg l h4 hr]
      rw [List.flatten_append, chunksOf_join]
      exact largerChunks_flatten g _ l

theorem rawBranches_head_ge2 (g : Nat) (hg : 2 ≤ g) (l : List α)
    (h4 : 4 ≤ l.length) : ∃ gr ∈ rawBranches g l, 2 ≤ gr.length := by
  have htake : 2 ≤ (l.take (g + 1)).length := by
    rw [List.length_take]
    omega
  unfold rawBranches
  split
  next h1 =>
    obtain ⟨hle, hdvd⟩ := r1_arith g l.length hg h4 h1
    rw [r1Loop_of_dvd g hg _ _ (by rw [List.length_drop]; exact hdvd)]
    exact ⟨l.take (g + 1), List.mem_append_left _ (List.mem_singleton.mpr rfl),
      htake⟩
  next h1 =>
    split
    next h0 =>
      cases l with
      | nil => simp at h4
      | cons a t =>
        rw [chunksOf_cons]
        refine ⟨a :: t.take (g - 1), List.mem_cons_self _ _, ?_⟩
        simp only [List.length_cons, List.length_take]
        simp only [List.length_cons] at h4
        omega
    next h0 =>
      have hr : 2 ≤ l.length % g := by
        have := Nat.mod_lt l.length (show 0 < g by omega)
        omega
      rw [elseBranchB_eq g hg l h4 hr]
      have ht : 0 < (if l.length / g < l.length % g then 1 else l.length % g) := by
        split <;> omega
      obtain ⟨rest, hrest⟩ := largerChunks_fst_head g _ ht l
      rw [hrest]
      exact ⟨l.take (g + 1), List.mem_append_left _ (List.mem_cons_self _ _),
        htake⟩

theorem repairPass_flatten_perm (gs : List (List α))
    (h : ∀ gr ∈ gs, gr ≠ []) (h2 : ∃ gr ∈ gs, 2 ≤ gr.length) :
    List.Perm (repairPass gs).flatten gs.flatten := by
  simp only [repairPass]
  split
  next hpos =>
    have hvalid : 0 < (gs.filter (fun gr => decide (1 < gr.length))).length := by
      rcases h2 with ⟨gr, hgr, hge⟩
      have : gr ∈ gs.filter (fun gr => decide (1 < gr.length)) :=
        List.mem_filter.mpr ⟨hgr, by simp; omega⟩
      cases hfil : gs.filter (fun gr => decide (1 < gr.length)) with
      | nil => rw [hfil] at this; simp at this
      | cons x xs => simp
    have hperm := rrLoop_flatten_perm
      (gs.filter (fun gr => decide (1 < gr.length))) 0
      ((gs.filter (fun gr => gr.length == 1)).flatten) hvalid
    exact hperm.trans (filter_flatten_perm gs h)
  next =>
    exact List.Perm.refl _

theorem flatMap_members_map_mk (gs : List (List SlackUser)) :
    (gs.map CoffeeGroup.mk).flatMap CoffeeGroup.members = gs.flatten := by
  induction gs with
  | nil => rfl
  | cons a t ih =>
    rw [List.map_cons, List.flatMap_cons, ih, List.flatten_cons]

theorem sizesOf_map_mk (gs : List (List SlackUser)) :
    sizesOf (gs.map CoffeeGroup.mk) = gs.map List.length := by
  unfold sizesOf
  rw [List.map_map]
  rfl

theorem all_of_map_length {gs : List (List α)} {s : List Nat}
    (h : gs.map List.length = s) : ∀ gr ∈ gs, gr.length ∈ s :=
  fun gr hgr => h ▸ List.mem_map.mpr ⟨gr, hgr, rfl⟩

theorem createGroupsBCore_all_ge2 (cs : Nat → Nat) (users : List SlackUser)
    (g : Nat) (hg : 2 ≤ g) :
    ∀ m ∈ createGroupsBCore cs users g, 2 ≤ m.length := by
  simp only [createGroupsBCore]
  split
  next => intro m hm; simp at hm
  next h0 =>
    split
    next => intro m hm; simp at hm
    next h1 =>
      split
      next h3 =>
        intro m hm
        have hme : m = shuffleArray cs users := by simpa using hm
        rw [hme, shuffleArray_length]
        omega
      next h3 =>
        have h4 : 4 ≤ (shuffleArray cs users).length := by omega
        exact repairPass_all_ge2 _ (rawBranches_ne_nil g hg _ h4)

theorem createGroupsBCore_flatten_perm (cs : Nat → Nat)
    (users : List SlackUser) (g : Nat) (hg : 2 ≤ g) (hN : 2 ≤ users.length) :
    List.Perm (createGroupsBCore cs users g).flatten users := by
  simp only [createGroupsBCore]
  rw [if_neg (by omega), if_neg (by omega)]
  split
  next h3 =>
    simpa using shuffleArray_perm cs users
  next h3 =>
    have h4 : 4 ≤ (shuffleArray cs users).length := by omega
    have hp := repairPass_flatten_perm (rawBranches g (shuffleArray cs users))
      (rawBranches_ne_nil g hg _ h4) (rawBranches_head_ge2 g hg _ h4)
    rw [rawBranches_flatten g hg _ h4] at hp
    exact hp.trans (shuffleArray_perm cs users)

theorem createGroupsA_flatten_perm (cs : Nat → Nat) (users : List SlackUser)
    (g : Nat) :
    List.Perm ((createGroupsA cs users g).flatMap CoffeeGroup.members) users := by
  unfold createGroupsA
  by_cases h0 : users.length = 0
  · rw [if_pos h0]
    have : users = [] := List.length_eq_zero.mp h0
    rw [this]
    exact List.Perm.refl _
  · rw [if_neg h0, flatMap_members_map_mk, mergeLastIfSingle_flatten,
      chunksOf_join]
    exact shuffleArray_perm cs users

theorem createGroupsA_sizes_of_le2 (cs : Nat → Nat) (users : List SlackUser)
    (g : Nat) (hg : 0 < g) (h : ¬ 2 < g) :
    sizesOf (createGroupsA cs users g) = chunkSizes g users.length := by
  unfold createGroupsA
  by_cases h0 : users.length = 0
  · rw [if_pos h0, h0, chunkSizes_zero]
    rfl
  · rw [if_neg h0, mergeLastIfSingle_of_not_gt g h, sizesOf_map_mk,
      map_length_chunksOf g (by omega), shuffleArray_length]

theorem createGroupsBCore_small (cs : Nat → Nat) (users : List SlackUser)
    (g : Nat) (hN2 : 2 ≤ users.length) (hN3 : users.length ≤ 3) :
    createGroupsBCore cs users g = [shuffleArray cs users] := by
  simp only [createGroupsBCore]
  rw [if_neg (by omega), if_neg (by omega),
    if_pos (by rw [shuffleArray_length]; omega)]

theorem repairPass_nil : repairPass ([] : List (List α)) = [] := rfl

theorem createGroupsBCore_eq_repair_raw (cs : Nat → Nat)
    (users : List SlackUser) (g : Nat) :
    createGroupsBCore cs users g = repairPass (rawGroupsB cs users g) := by
  simp only [createGroupsBCore, rawGroupsB]
  by_cases h0 : users.length = 0
  · rw [if_pos h0, if_pos h0, repairPass_nil]
  · rw [if_neg h0, if_neg h0]
    by_cases h1 : users.length = 1
    · rw [if_pos h1, if_pos h1, repairPass_nil]
    · rw [if_neg h1, if_neg h1]
      by_cases h3 : (shuffleArray cs users).length ≤ 3
      · rw [if_pos h3, if_pos h3]
        refine (repairPass_eq_of_no_singles _ ?_).symm
        intro gr hgr
        have hme : gr = shuffleArray cs users := by simpa using hgr
        rw [hme, shuffleArray_length]
        omega
      · rw [if_neg h3, if_neg h3]

theorem mergeLastIfSingle_three (g : Nat) (hg : 2 < g) (c1 c2 c3 : List α)
    (h3 : c3.length = 1) :
    mergeLastIfSingle g [c1, c2, c3] = [c1, c2 ++ c3] := by
  have e : ([c1, c2, c3] : List (List α)) = [c1, c2] ++ [c3] := rfl
  have hlast : ([c1, c2, c3] : List (List α)).getLastD [] = c3 := by
    rw [e, List.getLastD_concat]
  unfold mergeLastIfSingle
  rw [if_pos ⟨by simp, by rw [hlast]; exact h3, hg⟩]
  rw [e, List.dropLast_concat, List.getLastD_concat]
  have e2 : ([c1, c2] : List (List α)) = [c1] ++ [c2] := rfl
  rw [e2, List.dropLast_concat, List.getLastD_concat]
  rfl

theorem rawBranches_sizes_r1 (g : Nat) (hg : 2 ≤ g) (l : List α)
    (h4 : 4 ≤ l.length) (h1 : l.length % g = 1) :
    (rawBranches g l).map List.length =
      (g + 1) :: chunkSizes g (l.length - (g + 1)) := by
  unfold rawBranches
  rw [if_pos h1]
  obtain ⟨hle, hdvd⟩ := r1_arith g l.length hg h4 h1
  rw [r1Loop_of_dvd g hg _ _ (by rw [List.length_drop]; exact hdvd)]
  rw [List.map_append, map_length_chunksOf g (by omega), List.length_drop]
  simp only [List.map_cons, List.map_nil, List.length_take,
    List.singleton_append]
  congr 1
  omega

theorem chunkSizes_mul (g k : Nat) (hg : 0 < g) :
    chunkSizes g (g * k) = List.replicate k g := by
  unfold chunkSizes
  rw [Nat.mul_div_cancel_left k hg, Nat.mul_mod_right]
  simp

theorem elseCommon_sizes (g : Nat) (hg : 2 ≤ g) (l : List α)
    (_h4 : 4 ≤ l.length) (_hr : 2 ≤ l.length % g)
    (hle : l.length % g ≤ l.length / g) :
    ((largerChunks g (if l.length / g < l.length % g then 1 else l.length % g) l).1 ++
        chunksOf g
          (largerChunks g (if l.length / g < l.length % g then 1 else l.length % g) l).2).map
        List.length =
      List.replicate (l.length % g) (g + 1) ++
        List.replicate (l.length / g - l.length % g) g := by
  have hif : (if l.length / g < l.length % g then 1 else l.length % g) =
      l.length % g := if_neg (by omega)
  rw [hif, List.map_append,
    largerChunks_sizes g _ l (tLG_mul_le g l.length hg hle),
    map_length_chunksOf g (by omega), largerChunks_snd, List.length_drop]
  congr 1
  have hd := Nat.div_add_mod l.length g
  obtain ⟨k, hk⟩ : ∃ k, l.length / g = l.length % g + k :=
    ⟨l.length / g - l.length % g, by omega⟩
  have hm1 : g * (l.length % g + k) = g * (l.length % g) + g * k :=
    Nat.mul_add g _ k
  have hm2 : (l.length % g) * (g + 1) = (l.length % g) * g + l.length % g := by
    ring
  have hm3 : g * (l.length % g) = (l.length % g) * g := Nat.mul_comm g _
  rw [hk, hm1, hm3] at hd
  have hsub : l.length / g - l.length % g = k := by omega
  have hrem : l.length - (l.length % g) * (g + 1) = g * k := by omega
  rw [hsub, hrem, chunkSizes_mul g k (by omega)]

theorem elseBranchB_sizes_rle (g : Nat) (hg : 2 ≤ g) (l : List α)
    (h4 : 4 ≤ l.length) (hr : 2 ≤ l.length % g)
    (hle : l.length % g ≤ l.length / g) :
    (elseBranchB g l).map List.length =
      List.replicate (l.length % g) (g + 1) ++
        List.replicate (l.length / g - l.length % g) g := by
  rw [elseBranchB_eq g hg l h4 hr]
  exact elseCommon_sizes g hg l h4 hr hle

/-- A degenerate choice stream (every draw is 0), used in concrete instances. -/
def zeroChoice : Nat → Nat := fun _ => 0

/-- Concrete participant lists used in counterexamples and witnesses. -/
def sampleUsers (n : Nat) : List SlackUser :=
  (List.range n).map (fun i => ⟨toString i, toString i, none⟩)

/-- C1 counterexample: for 3 participants and targetSize 2 (both within the
claim's bounds) the `src/utils.ts` implementation of `createGroups` returns
groups of sizes `[2, 1]` — a nonempty result containing a group with only
one member, contradicting the claim. -/
theorem c1_counterexample :
    sizesOf (createGroupsA zeroChoice (sampleUsers 3) 2) = [2, 1] := by
  rw [createGroupsA_sizes_of_le2 zeroChoice (sampleUsers 3) 2 (by omega)
    (by omega)]
  decide

/-- C1 amended: the repair-pass implementation of `createGroups` (the
variant that scans for and dissolves single-member groups) satisfies the
claim: for every participant list, every choice stream and every
targetSize at least 2, every returned group has at least 2 members. -/
theorem c1_theorem (cs : Nat → Nat) (users : List SlackUser) (g : Nat)
    (hg : 2 ≤ g) : ∀ gr ∈ createGroupsB cs users g, 2 ≤ gr.members.length := by
  intro gr hgr
  unfold createGroupsB at hgr
  obtain ⟨m, hm, rfl⟩ := List.mem_map.mp hgr
  exact createGroupsBCore_all_ge2 cs users g hg m hm

/-- C1 witness: the amended theorem applied at a concrete instance. -/
theorem c1_witness :
    2 ≤ 2 ∧ ∀ gr ∈ createGroupsB zeroChoice (sampleUsers 2) 2,
      2 ≤ gr.members.length :=
  ⟨by decide, c1_theorem zeroChoice (sampleUsers 2) 2 (by decide)⟩

/-- C2: for every participant list with at least 2 members and every
targetSize at least 2, both the `src/utils.ts` implementation and the
repair-pass implementation of `createGroups` return groups whose members,
taken together, are a permutation of the input list (no participant is
duplicated and none is omitted). -/
theorem c2_theorem (cs : Nat → Nat) (users : List SlackUser) (g : Nat)
    (hg : 2 ≤ g) (hN : 2 ≤ users.length) :
    List.Perm ((createGroupsA cs users g).flatMap CoffeeGroup.members) users ∧
    List.Perm ((createGroupsB cs users g).flatMap CoffeeGroup.members) users := by
  refine ⟨createGroupsA_flatten_perm cs users g, ?_⟩
  unfold createGroupsB
  rw [flatMap_members_map_mk]
  exact createGroupsBCore_flatten_perm cs users g hg hN

/-- C2 witness: the theorem applied at a concrete instance. -/
theorem c2_witness :
    (2 ≤ 2 ∧ 2 ≤ (sampleUsers 2).length) ∧
    List.Perm ((createGroupsA zeroChoice (sampleUsers 2) 2).flatMap
      CoffeeGroup.members) (sampleUsers 2) ∧
    List.Perm ((createGroupsB zeroChoice (sampleUsers 2) 2).flatMap
      CoffeeGroup.members) (sampleUsers 2) :=
  ⟨⟨by decide, by decide⟩,
    c2_theorem zeroChoice (sampleUsers 2) 2 (by decide) (by decide)⟩

/-- C3 counterexample: on a one-participant list both the `src/utils.ts`
implementation and the `part_002` implementation of `createGroups` return a
single singleton group, not the empty list the claim demands. -/
theorem c3_counterexample :
    createGroupsA zeroChoice [⟨"a", "a", none⟩] 3 =
        [CoffeeGroup.mk [⟨"a", "a", none⟩]] ∧
    createGroupsC zeroChoice [⟨"a", "a", none⟩] 3 =
        [CoffeeGroup.mk [⟨"a", "a", none⟩]] := by
  constructor
  · simp [createGroupsA, shuffleArray, fyLoop, swapAt, mergeLastIfSingle,
      chunksOf]
  · simp [createGroupsC, createGroupsCCore, shuffleArray, fyLoop, swapAt,
      chunksOf, largerChunks]

/-- C3 amended: on the empty list every implementation of `createGroups`
returns the empty list, and on a one-participant list the repair-pass
implementation (the only one with an explicit length-1 check) returns the
empty list. -/
theorem c3_theorem (cs : Nat → Nat) (g : Nat) (u : SlackUser) :
    createGroupsB cs [u] g = [] ∧ createGroupsA cs [] g = [] ∧
    createGroupsB cs [] g = [] ∧ createGroupsC cs [] g = [] :=
  ⟨rfl, rfl, rfl, rfl⟩

/-- C4 counterexample: for 7 participants and targetSize 3 the `part_002`
implementation of `createGroups` returns three groups of sizes `[3, 3, 1]` —
not two groups, and one of them is a singleton. -/
theorem c4_counterexample :
    sizesOf (createGroupsC zeroChoice (sampleUsers 7) 3) = [3, 3, 1] := by
  simp [createGroupsC, createGroupsCCore, sizesOf, sampleUsers, zeroChoice,
    shuffleArray, fyLoop, swapAt, chunksOf, List.range_succ]

/-- C4 amended: for every 7-participant list and targetSize 3, the
`src/utils.ts` implementation returns exactly the group sizes `[3, 4]` and
the repair-pass implementation exactly `[4, 3]`: two groups, one of size 4
and one of size 3, never a group of size 1 (the `part_002` implementation
instead returns `[3, 3, 1]`). -/
theorem c4_theorem (cs : Nat → Nat) (users : List SlackUser)
    (h7 : users.length = 7) :
    sizesOf (createGroupsA cs users 3) = [3, 4] ∧
    sizesOf (createGroupsB cs users 3) = [4, 3] := by
  have hlen : (shuffleArray cs users).length = 7 := by
    rw [shuffleArray_length, h7]
  constructor
  · unfold createGroupsA
    rw [if_neg (by omega), sizesOf_map_mk]
    have hsz : (chunksOf 3 (shuffleArray cs users)).map List.length =
        [3, 3, 1] := by
      rw [map_length_chunksOf 3 (by omega), hlen]
      decide
    have hcount : (chunksOf 3 (shuffleArray cs users)).length = 3 := by
      have := congrArg List.length hsz
      simpa using this
    obtain ⟨c1, c2, c3, hc⟩ := List.length_eq_three.mp hcount
    rw [hc] at hsz
    simp only [List.map_cons, List.map_nil, List.cons.injEq, and_true] at hsz
    obtain ⟨h1, h2, h3⟩ := hsz
    rw [hc, mergeLastIfSingle_three 3 (by omega) c1 c2 c3 h3]
    simp [h1, h2, h3]
  · unfold createGroupsB
    rw [sizesOf_map_mk]
    simp only [createGroupsBCore]
    rw [if_neg (by omega), if_neg (by omega), if_neg (by omega)]
    have hraw : (rawBranches 3 (shuffleArray cs users)).map List.length =
        [4, 3] := by
      rw [rawBranches_sizes_r1 3 (by omega) _ (by omega) (by rw [hlen]), hlen]
      decide
    have hnos : ∀ gr ∈ rawBranches 3 (shuffleArray cs users),
        gr.length ≠ 1 := by
      intro gr hgr
      have := all_of_map_length hraw gr hgr
      simp only [List.mem_cons, List.not_mem_nil, or_false] at this
      omega
    rw [repairPass_eq_of_no_singles _ hnos, hraw]

/-- C4 witness: the amended theorem applied at a concrete 7-user list. -/
theorem c4_witness :
    (sampleUsers 7).length = 7 ∧
    sizesOf (createGroupsA zeroChoice (sampleUsers 7) 3) = [3, 4] ∧
    sizesOf (createGroupsB zeroChoice (sampleUsers 7) 3) = [4, 3] :=
  ⟨by decide, c4_theorem zeroChoice (sampleUsers 7) (by decide)⟩

/-- C5 counterexample: for a 3-participant list and targetSize 2 (within the
claim's bounds `2 <= N <= 3`, `targetSize >= 2`), the `src/utils.ts`
implementation of `createGroups` returns two groups, not a single group
containing everyone. -/
theorem c5_counterexample :
    (createGroupsA zeroChoice (sampleUsers 3) 2).length = 2 := by
  have h := createGroupsA_sizes_of_le2 zeroChoice (sampleUsers 3) 2 (by omega)
    (by omega)
  have hlen : (sizesOf (createGroupsA zeroChoice (sampleUsers 3) 2)).length = 2 := by
    rw [h]
    decide
  simpa [sizesOf] using hlen

/-- C5 amended: the repair-pass implementation of `createGroups` returns a
single group containing all participants whenever `2 <= N <= 3` and
`targetSize >= 2` (for the `src/utils.ts` implementation this fails at
`N = 3, targetSize = 2`). -/
theorem c5_theorem (cs : Nat → Nat) (users : List SlackUser) (g : Nat)
    (_hg : 2 ≤ g) (h2 : 2 ≤ users.length) (h3 : users.length ≤ 3) :
    (createGroupsB cs users g).length = 1 ∧
    List.Perm ((createGroupsB cs users g).flatMap CoffeeGroup.members) users := by
  unfold createGroupsB
  rw [createGroupsBCore_small cs users g h2 h3]
  refine ⟨rfl, ?_⟩
  rw [flatMap_members_map_mk]
  simpa using shuffleArray_perm cs users

/-- C5 witness: the amended theorem applied at a concrete instance. -/
theorem c5_witness :
    (2 ≤ 2 ∧ 2 ≤ (sampleUsers 3).length ∧ (sampleUsers 3).length ≤ 3) ∧
    (createGroupsB zeroChoice (sampleUsers 3) 2).length = 1 ∧
    List.Perm ((createGroupsB zeroChoice (sampleUsers 3) 2).flatMap
      CoffeeGroup.members) (sampleUsers 3) :=
  ⟨⟨by decide, by decide, by decide⟩,
    c5_theorem zeroChoice (sampleUsers 3) 2 (by decide) (by decide) (by decide)⟩

/-- C6 counterexample: for 11 participants and targetSize 4 we have
`remainder = 3` and `floor(N / targetSize) = 2`, so the claim demands
`min(3, 2) = 2` enlarged groups of size 5; the repair-pass implementation
instead returns sizes `[5, 4, 2]` — exactly one group was enlarged. -/
theorem c6_counterexample :
    sizesOf (createGroupsB zeroChoice (sampleUsers 11) 4) = [5, 4, 2] := by
  simp [createGroupsB, createGroupsBCore, rawBranches, elseBranchB, sizesOf,
    sampleUsers, zeroChoice, shuffleArray, fyLoop, swapAt, chunksOf,
    largerChunks, repairPass, rrLoop, addRR, List.range_succ]

/-- C6 amended: when additionally `remainder <= floor(N / targetSize)` (so
that `min(remainder, floor(N / targetSize)) = remainder`), both the
repair-pass implementation and the `part_002` implementation enlarge
exactly `remainder` groups to `targetSize + 1` and make all remaining
groups of size `targetSize`; when `remainder > floor(N / targetSize)` the
code enlarges exactly one group instead of `min` of them. -/
theorem c6_theorem (cs : Nat → Nat) (users : List SlackUser) (g : Nat)
    (hg : 2 ≤ g) (h4 : 3 < users.length) (hr : 2 ≤ users.length % g)
    (hle : users.length % g ≤ users.length / g) :
    sizesOf (createGroupsB cs users g) =
      List.replicate (users.length % g) (g + 1) ++
        List.replicate (users.length / g - users.length % g) g ∧
    sizesOf (createGroupsC cs users g) =
      List.replicate (users.length % g) (g + 1) ++
        List.replicate (users.length / g - users.length % g) g := by
  have hlen : (shuffleArray cs users).length = users.length :=
    shuffleArray_length cs users
  constructor
  · unfold createGroupsB
    rw [sizesOf_map_mk]
    simp only [createGroupsBCore]
    rw [if_neg (by omega), if_neg (by omega), if_neg (by rw [hlen]; omega)]
    have hsz : (rawBranches g (shuffleArray cs users)).map List.length =
        List.replicate (users.length % g) (g + 1) ++
          List.replicate (users.length / g - users.length % g) g := by
      unfold rawBranches
      rw [if_neg (by rw [hlen]; omega), if_neg (by rw [hlen]; omega)]
      have he := elseBranchB_sizes_rle g hg (shuffleArray cs users)
        (by rw [hlen]; omega) (by rw [hlen]; exact hr)
        (by rw [hlen]; exact hle)
      rw [he, hlen]
    have hnos : ∀ gr ∈ rawBranches g (shuffleArray cs users),
        gr.length ≠ 1 := by
      intro gr hgr
      have hmem := all_of_map_length hsz gr hgr
      rcases List.mem_append.mp hmem with hm | hm
      · have := List.eq_of_mem_replicate hm
        omega
      · have := List.eq_of_mem_replicate hm
        omega
    rw [repairPass_eq_of_no_singles _ hnos, hsz]
  · unfold createGroupsC
    rw [sizesOf_map_mk]
    simp only [createGroupsCCore]
    rw [if_neg (by omega)]
    rw [if_neg (by
      intro hcon
      have := hcon.1
      rw [hlen] at this
      omega)]
    rw [if_neg (by rw [hlen]; omega)]
    have he := elseCommon_sizes g hg (shuffleArray cs users)
      (by rw [hlen]; omega) (by rw [hlen]; exact hr) (by rw [hlen]; exact hle)
    rw [he, hlen]

/-- C6 witness: the amended theorem applied at a concrete instance with
14 participants and targetSize 4 (remainder 2, two enlarged groups). -/
theorem c6_witness :
    (2 ≤ 4 ∧ 3 < (sampleUsers 14).length ∧ 2 ≤ (sampleUsers 14).length % 4 ∧
      (sampleUsers 14).length % 4 ≤ (sampleUsers 14).length / 4) ∧
    sizesOf (createGroupsB zeroChoice (sampleUsers 14) 4) =
      List.replicate ((sampleUsers 14).length % 4) 5 ++
        List.replicate ((sampleUsers 14).length / 4 - (sampleUsers 14).length % 4) 4 ∧
    sizesOf (createGroupsC zeroChoice (sampleUsers 14) 4) =
      List.replicate ((sampleUsers 14).length % 4) 5 ++
        List.replicate ((sampleUsers 14).length / 4 - (sampleUsers 14).length % 4) 4 :=
  ⟨⟨by decide, by decide, by decide, by decide⟩,
    c6_theorem zeroChoice (sampleUsers 14) 4 (by decide) (by decide)
      (by decide) (by decide)⟩

/-- C7 counterexample: `createGroups` performs no validation of the target
size: called with `targetSize = 1 < 2` the `src/utils.ts` implementation
returns a normal result (one singleton group per participant) instead of
failing with an `InvalidArgument` error — no such failure path exists
anywhere in the source. -/
theorem c7_counterexample :
    createGroupsA zeroChoice (sampleUsers 2) 1 =
      [CoffeeGroup.mk [⟨"1", "1", none⟩], CoffeeGroup.mk [⟨"0", "0", none⟩]] := by
  simp [createGroupsA, sampleUsers, zeroChoice, shuffleArray, fyLoop, swapAt,
    mergeLastIfSingle, chunksOf, List.range_succ]
  decide

/-- C7 amended: `createGroups` is total also outside the claimed
precondition domain and applies no targetSize validation: with
`targetSize = 1` the `src/utils.ts` implementation returns one group of
size 1 per participant, for every input list and choice stream. -/
theorem c7_theorem (cs : Nat → Nat) (users : List SlackUser) :
    sizesOf (createGroupsA cs users 1) = List.replicate users.length 1 := by
  rw [createGroupsA_sizes_of_le2 cs users 1 (by omega) (by omega)]
  unfold chunkSizes
  rw [Nat.div_one, Nat.mod_one]
  simp

/-- C8: whenever not every member of a group has a (truthy) email address,
`createGoogleMeetEvent` returns an error result and no meeting link,
regardless of the state of the calendar client. -/
theorem c8_theorem (group : CoffeeGroup)
    (calendarApi : Option (List String → MeetResult))
    (h : (group.members.all emailTruthy) = false) :
    (createGoogleMeetEvent group calendarApi).error.isSome = true ∧
    (createGoogleMeetEvent group calendarApi).meetLink = none := by
  unfold createGoogleMeetEvent
  cases calendarApi with
  | none => exact ⟨rfl, rfl⟩
  | some insert =>
    rw [h]
    exact ⟨rfl, rfl⟩

/-- C8 witness: the theorem applied to a concrete group whose only member
has no email, with a calendar client that would succeed if called. -/
theorem c8_witness :
    ((CoffeeGroup.mk [⟨"U1", "Ann", none⟩]).members.all emailTruthy) = false ∧
    (createGoogleMeetEvent (CoffeeGroup.mk [⟨"U1", "Ann", none⟩])
        (some (fun _ => ⟨some "link", some "id", none⟩))).error.isSome = true ∧
    (createGoogleMeetEvent (CoffeeGroup.mk [⟨"U1", "Ann", none⟩])
        (some (fun _ => ⟨some "link", some "id", none⟩))).meetLink = none :=
  ⟨by decide,
    c8_theorem (CoffeeGroup.mk [⟨"U1", "Ann", none⟩])
      (some (fun _ => ⟨some "link", some "id", none⟩)) (by decide)⟩

/-- C9: the invariant-repair pass is idempotent, its output never contains
a group of exactly one member, and the repair-pass variant of
`createGroups` factors through the pass on every input — the `total <= 3`
branch returns before the scan in the source, but on that branch the pass
is the identity, so the factoring holds for every branch. -/
theorem c9_theorem :
    (∀ gs : List (List SlackUser), repairPass (repairPass gs) = repairPass gs) ∧
    (∀ (gs : List (List SlackUser)) (gr : List SlackUser),
      gr ∈ repairPass gs → gr.length ≠ 1) ∧
    (∀ (cs : Nat → Nat) (users : List SlackUser) (g : Nat),
      createGroupsBCore cs users g = repairPass (rawGroupsB cs users g)) :=
  ⟨fun gs => repairPass_idem gs,
    fun gs gr hgr => repairPass_no_single gs gr hgr,
    fun cs users g => createGroupsBCore_eq_repair_raw cs users g⟩

/-- C9 witness: the three parts of the theorem applied at concrete inputs. -/
theorem c9_witness :
    (repairPass (repairPass [[(⟨"a", "a", none⟩ : SlackUser), ⟨"b", "b", none⟩]]) =
      repairPass [[(⟨"a", "a", none⟩ : SlackUser), ⟨"b", "b", none⟩]]) ∧
    ([(⟨"a", "a", none⟩ : SlackUser), ⟨"b", "b", none⟩].length ≠ 1) ∧
    (createGroupsBCore zeroChoice [⟨"a", "a", none⟩, ⟨"b", "b", none⟩] 2 =
      repairPass (rawGroupsB zeroChoice [⟨"a", "a", none⟩, ⟨"b", "b", none⟩] 2)) :=
  ⟨c9_theorem.1 _,
    c9_theorem.2.1 [[⟨"a", "a", none⟩, ⟨"b", "b", none⟩]]
      [⟨"a", "a", none⟩, ⟨"b", "b", none⟩] (by decide),
    c9_theorem.2.2 zeroChoice [⟨"a", "a", none⟩, ⟨"b", "b", none⟩] 2⟩

/-- C10: `shuffleArray` returns a permutation of its input array: the
result has the same length and exactly the same elements with the same
multiplicities (`List.Perm` is equivalent to equality of multisets),
whatever the stream of random draws. -/
theorem c10_theorem {α : Type} (cs : Nat → Nat) (l : List α) :
    (shuffleArray cs l).length = l.length ∧
    List.Perm (shuffleArray cs l) l :=
  ⟨shuffleArray_length cs l, shuffleArray_perm cs l⟩

end SwiftCoffees
